import Mathlib

/-!
Shallow embedding of the distributed translation pipeline in `app/tasks.py`:
the crypto helpers (`encrypt_and_save`, `decrypt_file`), the chunking loop of
`split_and_dispatch`, the worker `process_chunk`, the combined-text computation
of `aggregate_results`, and a transition system for the fan-out/fan-in barrier.

Texts and files are modelled as byte lists (`Bytes`); the AES-256 block
primitive and the SHA-256 key derivation live in an external library, so they
enter as parameters: any `BlockCipher` (a keyed permutation of 16-byte blocks,
which AES-256 is) and any key-derivation function.  Everything the repository
itself implements — PKCS7 padding, CBC chaining, the `iv || ciphertext`
framing, UTF-8 decoding checks, chunking, sorting, aggregation — is translated
directly from the source.
-/

abbrev Bytes := List Nat

/-- XOR of two byte strings, pointwise, truncated to the shorter one. -/
def xorBytes (a b : Bytes) : Bytes := List.zipWith (fun x y => x ^^^ y) a b

theorem xorBytes_length (a b : Bytes) : (xorBytes a b).length = min a.length b.length := by
  simp [xorBytes]

theorem xorBytes_xorBytes_right (a b : Bytes) (h : a.length = b.length) :
    xorBytes (xorBytes a b) b = a := by
  induction a generalizing b with
  | nil => cases b <;> simp [xorBytes]
  | cons x xs ih =>
    cases b with
    | nil => simp at h
    | cons y ys =>
      simp only [xorBytes, List.zipWith_cons_cons, Nat.xor_cancel_right]
      exact congrArg _ (ih ys (by simpa using h))

/-- The external AES-256 block primitive, abstracted: a keyed permutation of
16-byte blocks.  `dec_enc` is the defining block-cipher property that AES
satisfies; `enc_len`/`dec_len` record that blocks stay 16 bytes. -/
structure BlockCipher where
  enc : Bytes → Bytes → Bytes
  dec : Bytes → Bytes → Bytes
  enc_len : ∀ k b, (enc k b).length = 16
  dec_len : ∀ k b, (dec k b).length = 16
  dec_enc : ∀ k b, b.length = 16 → dec k (enc k b) = b

/-- `padding.PKCS7(128).padder()`: append `16 - len % 16` bytes, each equal to
that count. -/
def pkcs7Pad (data : Bytes) : Bytes :=
  data ++ List.replicate (16 - data.length % 16) (16 - data.length % 16)

/-- `padding.PKCS7(128).unpadder()`: reject empty or non-block-multiple input,
reject a final byte outside 1..16, reject a tail that is not `padLen` copies of
`padLen`; otherwise strip the padding. -/
def pkcs7Unpad (data : Bytes) : Except String Bytes :=
  if data.length = 0 ∨ data.length % 16 ≠ 0 then .error "Invalid padding bytes."
  else
    let padLen := data.getLastD 0
    if padLen = 0 ∨ padLen > 16 then .error "Invalid padding bytes."
    else if data.drop (data.length - padLen) = List.replicate padLen padLen then
      .ok (data.take (data.length - padLen))
    else .error "Invalid padding bytes."

/-- CBC-mode encryption, one 16-byte block per fuel step:
`c_i = enc k (p_i XOR c_(i-1))` with `c_(-1) = iv`.  Each step consumes 16
bytes, so any fuel of at least the data length computes the whole input. -/
def cbcEncryptAux (C : BlockCipher) (key : Bytes) : Nat → Bytes → Bytes → Bytes
  | 0, _, _ => []
  | fuel + 1, iv, data =>
    if data = [] then []
    else
      let c := C.enc key (xorBytes (data.take 16) iv)
      c ++ cbcEncryptAux C key fuel c (data.drop 16)

/-- CBC-mode encryption of a block-multiple byte string. -/
def cbcEncrypt (C : BlockCipher) (key iv data : Bytes) : Bytes :=
  cbcEncryptAux C key data.length iv data

/-- CBC-mode decryption, one 16-byte block per fuel step:
`p_i = dec k c_i XOR c_(i-1)` with `c_(-1) = iv`. -/
def cbcDecryptAux (C : BlockCipher) (key : Bytes) : Nat → Bytes → Bytes → Bytes
  | 0, _, _ => []
  | fuel + 1, iv, data =>
    if data = [] then []
    else
      xorBytes (C.dec key (data.take 16)) iv ++
        cbcDecryptAux C key fuel (data.take 16) (data.drop 16)

/-- CBC-mode decryption of a block-multiple byte string. -/
def cbcDecrypt (C : BlockCipher) (key iv data : Bytes) : Bytes :=
  cbcDecryptAux C key data.length iv data

/-- Lower bound of the first continuation byte of a 3-byte sequence (RFC 3629,
as enforced by a strict UTF-8 decoder such as the one used by `str.decode`). -/
def utf8Lo3 (b : Nat) : Nat := if b = 0xE0 then 0xA0 else 0x80

/-- Upper bound of the first continuation byte of a 3-byte sequence. -/
def utf8Hi3 (b : Nat) : Nat := if b = 0xED then 0x9F else 0xBF

/-- Lower bound of the first continuation byte of a 4-byte sequence. -/
def utf8Lo4 (b : Nat) : Nat := if b = 0xF0 then 0x90 else 0x80

/-- Upper bound of the first continuation byte of a 4-byte sequence. -/
def utf8Hi4 (b : Nat) : Nat := if b = 0xF4 then 0x8F else 0xBF

/-- Strict UTF-8 validity of a byte string, as checked by `bytes.decode` in the
source: overlong encodings, surrogates and values above U+10FFFF are rejected. -/
def utf8Valid : Bytes → Bool
  | [] => true
  | b :: rest =>
    if b < 0x80 then utf8Valid rest
    else if 0xC2 ≤ b ∧ b ≤ 0xDF then
      match rest with
      | c1 :: rest2 => decide (0x80 ≤ c1 ∧ c1 ≤ 0xBF) && utf8Valid rest2
      | [] => false
    else if 0xE0 ≤ b ∧ b ≤ 0xEF then
      match rest with
      | c1 :: c2 :: rest3 =>
        decide (utf8Lo3 b ≤ c1 ∧ c1 ≤ utf8Hi3 b) &&
          decide (0x80 ≤ c2 ∧ c2 ≤ 0xBF) && utf8Valid rest3
      | _ => false
    else if 0xF0 ≤ b ∧ b ≤ 0xF4 then
      match rest with
      | c1 :: c2 :: c3 :: rest4 =>
        decide (utf8Lo4 b ≤ c1 ∧ c1 ≤ utf8Hi4 b) &&
          decide (0x80 ≤ c2 ∧ c2 ≤ 0xBF) &&
          decide (0x80 ≤ c3 ∧ c3 ≤ 0xBF) && utf8Valid rest4
      | _ => false
    else false

/-- The shared filesystem (NFS in the source), as a map from path to contents. -/
abbrev Fs := String → Option Bytes

/-- A filesystem holding no files. -/
def emptyFs : Fs := fun _ => none

/-- `encrypt_and_save` (`app/tasks.py:59`): PKCS7-pad the content, CBC-encrypt
it under the key derived from the password, and write `iv || ciphertext` at
`file_path`.  The fresh random `iv` from `os.urandom(16)` and the SHA-256 key
derivation `get_cipher_key` are inputs (`iv`, `keyOf`): both come from outside
the repository. -/
def encrypt_and_save (C : BlockCipher) (keyOf : Bytes → Bytes) (content : Bytes)
    (file_path : String) (password : Bytes) (iv : Bytes) (fs : Fs) : Fs :=
  let key := keyOf password
  let padded_data := pkcs7Pad content
  let encrypted_content := cbcEncrypt C key iv padded_data
  fun p => if p = file_path then some (iv ++ encrypted_content) else fs p

/-- `decrypt_file` (`app/tasks.py:73`): a missing file yields the empty string;
otherwise split the 16-byte IV from the ciphertext, CBC-decrypt, strip PKCS7
padding, and UTF-8-decode.  Errors model the exceptions raised by the
`cryptography` unpadder, the CBC finalizer on a non-block-multiple input, and
`bytes.decode`. -/
def decrypt_file (C : BlockCipher) (keyOf : Bytes → Bytes) (file_path : String)
    (password : Bytes) (fs : Fs) : Except String Bytes :=
  match fs file_path with
  | none => .ok []
  | some data =>
    let iv := data.take 16
    let encrypted_content := data.drop 16
    let key := keyOf password
    if encrypted_content.length % 16 ≠ 0 then
      .error "data is not a multiple of the block length"
    else
      match pkcs7Unpad (cbcDecrypt C key iv encrypted_content) with
      | .error e => .error e
      | .ok content => if utf8Valid content then .ok content else .error "UnicodeDecodeError"

theorem take_left_of_length {α : Type} {l₁ l₂ : List α} {n : Nat} (h : l₁.length = n) :
    (l₁ ++ l₂).take n = l₁ := by subst h; exact List.take_left _ _

theorem drop_left_of_length {α : Type} {l₁ l₂ : List α} {n : Nat} (h : l₁.length = n) :
    (l₁ ++ l₂).drop n = l₂ := by subst h; exact List.drop_left _ _

theorem cbcEncryptAux_length (C : BlockCipher) (key : Bytes) :
    ∀ (fuel : Nat) (iv data : Bytes), data.length % 16 = 0 → data.length ≤ fuel →
      (cbcEncryptAux C key fuel iv data).length = data.length := by
  intro fuel
  induction fuel with
  | zero =>
    intro iv data h hle
    simp only [cbcEncryptAux, List.length_nil]
    omega
  | succ fuel ih =>
    intro iv data h hle
    by_cases hd : data = []
    · simp [cbcEncryptAux, hd]
    · have hpos : 0 < data.length := List.length_pos.mpr hd
      have h16 : 16 ≤ data.length := by omega
      simp only [cbcEncryptAux, if_neg hd]
      rw [List.length_append, C.enc_len,
        ih _ _ (by simp only [List.length_drop]; omega)
          (by simp only [List.length_drop]; omega),
        List.length_drop]
      omega

theorem cbcEncrypt_length (C : BlockCipher) (key iv data : Bytes)
    (h : data.length % 16 = 0) : (cbcEncrypt C key iv data).length = data.length :=
  cbcEncryptAux_length C key data.length iv data h (Nat.le_refl _)

theorem cbcDecryptAux_cbcEncryptAux (C : BlockCipher) (key : Bytes) :
    ∀ (fuel : Nat) (iv data : Bytes), iv.length = 16 → data.length % 16 = 0 →
      data.length ≤ fuel →
      cbcDecryptAux C key fuel iv (cbcEncryptAux C key fuel iv data) = data := by
  intro fuel
  induction fuel with
  | zero =>
    intro iv data hiv h hle
    have hd : data = [] := List.length_eq_zero.mp (by omega)
    simp [cbcEncryptAux, cbcDecryptAux, hd]
  | succ fuel ih =>
    intro iv data hiv h hle
    by_cases hd : data = []
    · simp [cbcEncryptAux, cbcDecryptAux, hd]
    · have hpos : 0 < data.length := List.length_pos.mpr hd
      have h16 : 16 ≤ data.length := by omega
      have hclen : (C.enc key (xorBytes (data.take 16) iv)).length = 16 := C.enc_len _ _
      have htake : (data.take 16).length = 16 := by
        rw [List.length_take]; omega
      simp only [cbcEncryptAux, if_neg hd]
      have hne2 : C.enc key (xorBytes (data.take 16) iv)
          ++ cbcEncryptAux C key fuel (C.enc key (xorBytes (data.take 16) iv))
              (data.drop 16) ≠ [] := by
        intro habs
        have hlen0 := congrArg List.length habs
        rw [List.length_append, hclen] at hlen0
        simp at hlen0
      simp only [cbcDecryptAux, if_neg hne2]
      rw [take_left_of_length hclen, drop_left_of_length hclen]
      have hxlen : (xorBytes (data.take 16) iv).length = 16 := by
        rw [xorBytes_length, htake, hiv]; exact Nat.min_self 16
      rw [C.dec_enc _ _ hxlen,
        xorBytes_xorBytes_right _ _ (by rw [htake, hiv]),
        ih _ _ (C.enc_len _ _) (by simp only [List.length_drop]; omega)
          (by simp only [List.length_drop]; omega),
        List.take_append_drop]

theorem cbcDecrypt_cbcEncrypt (C : BlockCipher) (key iv data : Bytes)
    (hiv : iv.length = 16) (h : data.length % 16 = 0) :
    cbcDecrypt C key iv (cbcEncrypt C key iv data) = data := by
  unfold cbcDecrypt cbcEncrypt
  rw [cbcEncryptAux_length C key data.length iv data h (Nat.le_refl _)]
  exact cbcDecryptAux_cbcEncryptAux C key data.length iv data hiv h (Nat.le_refl _)

theorem pkcs7Pad_length_mod (data : Bytes) : (pkcs7Pad data).length % 16 = 0 := by
  simp only [pkcs7Pad, List.length_append, List.length_replicate]
  omega

theorem pkcs7Unpad_pkcs7Pad (data : Bytes) : pkcs7Unpad (pkcs7Pad data) = .ok data := by
  have hp1 : 1 ≤ 16 - data.length % 16 := by omega
  have hp16 : 16 - data.length % 16 ≤ 16 := by omega
  have hlen : (pkcs7Pad data).length = data.length + (16 - data.length % 16) := by
    simp [pkcs7Pad]
  have hmod := pkcs7Pad_length_mod data
  have hlast : (pkcs7Pad data).getLastD 0 = 16 - data.length % 16 := by
    have : pkcs7Pad data
        = (data ++ List.replicate (16 - data.length % 16 - 1) (16 - data.length % 16))
          ++ [16 - data.length % 16] := by
      rw [pkcs7Pad, List.append_assoc]
      congr 1
      rw [← List.replicate_succ' (16 - data.length % 16 - 1)]
      congr 1
      omega
    rw [this, List.getLastD_concat]
  rw [pkcs7Unpad]
  rw [if_neg (by push_neg; exact ⟨by omega, hmod⟩)]
  simp only [hlast]
  rw [if_neg (by push_neg; omega)]
  have hsub : (pkcs7Pad data).length - (16 - data.length % 16) = data.length := by omega
  rw [hsub]
  have hdrop : (pkcs7Pad data).drop data.length
      = List.replicate (16 - data.length % 16) (16 - data.length % 16) := by
    rw [pkcs7Pad]; exact List.drop_left _ _
  rw [if_pos hdrop]
  have htake : (pkcs7Pad data).take data.length = data := by
    rw [pkcs7Pad]; exact List.take_left _ _
  rw [htake]

/-- Pad with zero bytes and truncate to a 16-byte block. -/
def norm16 (b : Bytes) : Bytes := (b ++ List.replicate 16 0).take 16

theorem norm16_length (b : Bytes) : (norm16 b).length = 16 := by
  simp only [norm16, List.length_take, List.length_append, List.length_replicate]
  omega

theorem norm16_of_length {b : Bytes} (h : b.length = 16) : norm16 b = b :=
  take_left_of_length h

/-- A concrete member of the `BlockCipher` family (a keyed XOR permutation),
used to evaluate the development on explicit inputs. -/
def xorCipher : BlockCipher where
  enc k b := xorBytes (norm16 b) (norm16 k)
  dec k b := xorBytes (norm16 b) (norm16 k)
  enc_len k b := by
    rw [xorBytes_length, norm16_length, norm16_length]; exact Nat.min_self 16
  dec_len k b := by
    rw [xorBytes_length, norm16_length, norm16_length]; exact Nat.min_self 16
  dec_enc k b hb := by
    show xorBytes (norm16 (xorBytes (norm16 b) (norm16 k))) (norm16 k) = b
    rw [norm16_of_length (by
        rw [xorBytes_length, norm16_length, norm16_length]; exact Nat.min_self 16),
      xorBytes_xorBytes_right _ _ (by rw [norm16_length, norm16_length]),
      norm16_of_length hb]

/-- A concrete stand-in for the external `get_cipher_key` hash: pad or truncate
the passphrase bytes to a 32-byte key. -/
def padKey32 (pw : Bytes) : Bytes := (pw ++ List.replicate 32 0).take 32

/-- C3: for every plaintext and every passphrase, encrypting with
`encrypt_and_save` and then decrypting the artifact with `decrypt_file` under
the same passphrase returns the original plaintext.  Quantified over every
block cipher `C` (AES-256 is one) and key derivation `keyOf` (SHA-256 is one);
the plaintext is given by its UTF-8 bytes, so validity of those bytes is the
hypothesis that the plaintext is a string. -/
theorem c3_encrypt_decrypt_roundtrip (C : BlockCipher) (keyOf : Bytes → Bytes)
    (content : Bytes) (file_path : String) (password : Bytes) (iv : Bytes) (fs : Fs)
    (hiv : iv.length = 16) (hvalid : utf8Valid content = true) :
    decrypt_file C keyOf file_path password
      (encrypt_and_save C keyOf content file_path password iv fs) = .ok content := by
  have hmod : (pkcs7Pad content).length % 16 = 0 := pkcs7Pad_length_mod content
  have helen : (cbcEncrypt C (keyOf password) iv (pkcs7Pad content)).length
      = (pkcs7Pad content).length := cbcEncrypt_length _ _ _ _ hmod
  unfold encrypt_and_save decrypt_file
  simp only [if_pos rfl]
  rw [take_left_of_length hiv, drop_left_of_length hiv]
  rw [if_neg (by rw [helen, hmod]; exact fun hc => hc rfl)]
  rw [cbcDecrypt_cbcEncrypt C _ iv _ hiv hmod, pkcs7Unpad_pkcs7Pad]
  simp [hvalid]

/-- Witness for C3 at a concrete plaintext, passphrase, IV and cipher. -/
theorem c3_witness :
    (List.replicate 16 0 : Bytes).length = 16 ∧ utf8Valid [104, 105] = true ∧
    decrypt_file xorCipher padKey32 "f.enc" [112]
      (encrypt_and_save xorCipher padKey32 [104, 105] "f.enc" [112]
        (List.replicate 16 0) emptyFs) = .ok [104, 105] :=
  ⟨by decide, by decide,
    c3_encrypt_decrypt_roundtrip xorCipher padKey32 [104, 105] "f.enc" [112]
      (List.replicate 16 0) emptyFs (by decide) (by decide)⟩

/-- C10: for every path that does not exist in the filesystem and every
passphrase, `decrypt_file` returns the empty string rather than failing. -/
theorem c10_missing_file_is_empty (C : BlockCipher) (keyOf : Bytes → Bytes)
    (file_path : String) (password : Bytes) (fs : Fs) (h : fs file_path = none) :
    decrypt_file C keyOf file_path password fs = .ok [] := by
  unfold decrypt_file
  rw [h]

/-- Witness for C10 on the empty filesystem. -/
theorem c10_witness :
    emptyFs "missing.txt" = none ∧
    decrypt_file xorCipher padKey32 "missing.txt" [112] emptyFs = .ok [] :=
  ⟨rfl, c10_missing_file_is_empty xorCipher padKey32 "missing.txt" [112] emptyFs rfl⟩

/-- The chunking loop of `split_and_dispatch` (`app/tasks.py:153`): lines are
accumulated into `current_lines` with their cumulative UTF-8 byte count in
`current_bytes`; before a line is appended, a non-empty buffer that would
overflow `chunk_size` is flushed as a chunk; the final non-empty buffer is
flushed last.  A line is its list of UTF-8 bytes, so `line.length` is
`len(line.encode('utf-8'))`. -/
def chunkGo (chunk_size : Nat) (current_lines : List Bytes) (current_bytes : Nat) :
    List Bytes → List Bytes
  | [] => if current_lines = [] then [] else [current_lines.join]
  | line :: rest =>
    if current_bytes + line.length > chunk_size ∧ current_lines ≠ [] then
      current_lines.join :: chunkGo chunk_size [line] line.length rest
    else
      chunkGo chunk_size (current_lines ++ [line]) (current_bytes + line.length) rest

/-- The list of chunk contents `split_and_dispatch` writes, in index order
0..N-1, for a document given as its list of lines. -/
def splitChunks (chunk_size : Nat) (lines : List Bytes) : List Bytes :=
  chunkGo chunk_size [] 0 lines

theorem chunkGo_join (chunk_size : Nat) (l : List Bytes) :
    ∀ (cur : List Bytes) (b : Nat), (chunkGo chunk_size cur b l).join = cur.join ++ l.join := by
  induction l with
  | nil =>
    intro cur b
    rw [chunkGo]
    split
    next h => simp [h]
    next h => simp
  | cons line rest ih =>
    intro cur b
    rw [chunkGo]
    split
    next h => simp [ih]
    next h => simp [ih]

/-- C1: for every source document and every positive `chunk_size`,
concatenating the chunks produced by the splitting loop of
`split_and_dispatch`, in index order, reproduces the document byte-for-byte
(the document being the concatenation of its lines, so every chunk boundary
falls on a line boundary). -/
theorem c1_chunk_reassembly (chunk_size : Nat) (lines : List Bytes)
    (hpos : 0 < chunk_size) :
    (splitChunks chunk_size lines).join = lines.join := by
  rw [splitChunks, chunkGo_join]
  simp

/-- Witness for C1 on a concrete three-line document and chunk size 5. -/
theorem c1_witness :
    0 < 5 ∧ (splitChunks 5 [[97, 97, 97, 10], [98, 10], [99, 99, 99, 99, 10]]).join
      = ([[97, 97, 97, 10], [98, 10], [99, 99, 99, 99, 10]] : List Bytes).join :=
  ⟨by decide, c1_chunk_reassembly 5 _ (by decide)⟩

theorem chunkGo_small_or_single (chunk_size : Nat) (l : List Bytes) :
    ∀ (cur : List Bytes) (b : Nat), b = cur.join.length →
      (cur.join.length ≤ chunk_size ∨ ∃ x, cur = [x]) →
      ∀ c ∈ chunkGo chunk_size cur b l,
        c.length ≤ chunk_size ∨ c ∈ cur ∨ c ∈ l := by
  induction l with
  | nil =>
    intro cur b hb hcur c hc
    rw [chunkGo] at hc
    split at hc
    next => simp at hc
    next h =>
      simp only [List.mem_singleton] at hc
      subst hc
      rcases hcur with hle | ⟨x, hx⟩
      · exact Or.inl hle
      · subst hx
        simp
  | cons line rest ih =>
    intro cur b hb hcur c hc
    rw [chunkGo] at hc
    split at hc
    next h =>
      rcases List.mem_cons.mp hc with hc1 | hc2
      · subst hc1
        rcases hcur with hle | ⟨x, hx⟩
        · exact Or.inl hle
        · subst hx
          simp
      · rcases ih [line] line.length (by simp) (Or.inr ⟨line, rfl⟩) c hc2 with
          h1 | h2 | h3
        · exact Or.inl h1
        · simp only [List.mem_singleton] at h2
          exact Or.inr (Or.inr (by simp [h2]))
        · exact Or.inr (Or.inr (by simp [h3]))
    next h =>
      push_neg at h
      have hcur' : (cur ++ [line]).join.length ≤ chunk_size ∨ ∃ x, cur ++ [line] = [x] := by
        by_cases hemp : cur = []
        · exact Or.inr ⟨line, by simp [hemp]⟩
        · left
          have hle : b + line.length ≤ chunk_size := by
            by_contra hgt
            exact hemp (h (by omega))
          have hlen2 : (cur ++ [line]).join.length = cur.join.length + line.length := by
            simp [List.join_append]
          omega
      rcases ih (cur ++ [line]) (b + line.length)
          (by simp [List.join_append, hb]) hcur' c hc with h1 | h2 | h3
      · exact Or.inl h1
      · rcases List.mem_append.mp h2 with h2a | h2b
        · exact Or.inr (Or.inl h2a)
        · simp only [List.mem_singleton] at h2b
          exact Or.inr (Or.inr (by simp [h2b]))
      · exact Or.inr (Or.inr (by simp [h3]))

/-- C7: for a positive `chunk_size`, every chunk the splitting loop of
`split_and_dispatch` produces either fits in `chunk_size` UTF-8 bytes or is
exactly one (oversized) source line, emitted on its own — an oversized line is
never split across chunks and never merged with neighboring lines. -/
theorem c7_oversized_line_isolation (chunk_size : Nat) (lines : List Bytes)
    (hpos : 0 < chunk_size) :
    ∀ c ∈ splitChunks chunk_size lines, c.length ≤ chunk_size ∨ c ∈ lines := by
  intro c hc
  rcases chunkGo_small_or_single chunk_size lines [] 0 (by simp) (by simp) c hc with
    h1 | h2 | h3
  · exact Or.inl h1
  · simp at h2
  · exact Or.inr h3

/-- Witness for C7: a 6-byte line with chunk size 3 comes out as its own chunk. -/
theorem c7_witness :
    0 < 3 ∧
      (([97, 97, 97, 97, 97, 97] : Bytes).length ≤ 3 ∨
        ([97, 97, 97, 97, 97, 97] : Bytes) ∈ ([[97, 97, 97, 97, 97, 97]] : List Bytes)) :=
  ⟨by decide,
    c7_oversized_line_isolation 3 [[97, 97, 97, 97, 97, 97]] (by decide) _ (by decide)⟩

/-- Decimal digit test for `\d` in the chunk-index regex. -/
def isDigitChar (c : Char) : Bool := decide ('0' ≤ c) && decide (c ≤ '9')

/-- Value of a digit character. -/
def digitVal (c : Char) : Nat := c.toNat - 48

/-- `int` of a digit string given most-significant first. -/
def decimalValue (ds : List Char) : Nat := ds.foldl (fun acc c => acc * 10 + digitVal c) 0

/-- `_extract_chunk_index` (`app/tasks.py:93`): the index captured by searching
the path for the pattern chunk_ digits .txt anchored at the end of the string,
or the sentinel 999999 when there is no match.  A match is a decomposition
`pre ++ "chunk_" ++ digits ++ ".txt"` with `digits` nonempty; because "chunk_"
contains no digit, the digit run of the unique such decomposition is the
maximal digit run before the final ".txt", which is what the reversed-scan
below reads off. -/
def extract_chunk_index (path : String) : Nat :=
  let rs := path.data.reverse
  if rs.take 4 = ['t', 'x', 't', '.'] then
    let rest := rs.drop 4
    let ds := rest.takeWhile isDigitChar
    if ds ≠ [] ∧ (rest.drop ds.length).take 6 = ['_', 'k', 'n', 'u', 'h', 'c'] then
      decimalValue ds.reverse
    else 999999
  else 999999

/-- One result dictionary returned by `process_chunk`; `none` models an absent
key. Fields: `status`, `input_path`, `result_path`, `path`, `message`. -/
structure ChunkResult where
  status : Option String
  input_path : Option String
  result_path : Option String
  path : Option String
  message : Option String
deriving DecidableEq

/-- The path fed to the sort key in `aggregate_results`
(`app/tasks.py:322`): `x.get('input_path', '') or x.get('path', '')`. -/
def sortPath (r : ChunkResult) : String :=
  let a := r.input_path.getD ""
  if a = "" then r.path.getD "" else a

/-- The numeric sort key of a result. -/
def sortKey (r : ChunkResult) : Nat := extract_chunk_index (sortPath r)

/-- Comparison underlying the sort of `aggregate_results`. -/
def keyLe (a b : ChunkResult) : Prop := sortKey a ≤ sortKey b

instance : DecidableRel keyLe := fun _ _ => Nat.decLe _ _

instance : IsTotal ChunkResult keyLe := ⟨fun _ _ => Nat.le_total _ _⟩

instance : IsTrans ChunkResult keyLe := ⟨fun _ _ _ => Nat.le_trans⟩

/-- `sorted(results, key=...)` (`app/tasks.py:320`): Python's sort is stable,
so it is the insertion sort by `keyLe` (both are sorted by the same key and
keep equal-keyed elements in encounter order, which determines the output
uniquely). -/
def sortResults (results : List ChunkResult) : List ChunkResult :=
  List.insertionSort keyLe results

/-- UTF-8 bytes of an ASCII string. -/
def strBytes (s : String) : Bytes := s.data.map Char.toNat

/-- The fixed marker `aggregate_results` appends for a result it cannot use
(`app/tasks.py:342`). -/
def errMarker : Bytes := strBytes "\n--- [ERROR IN CHUNK] ---\n"

/-- One entry of `combined_text` (`app/tasks.py:329`): a result with status
`success` and a truthy `result_path` contributes the decryption of its result
file; every other result contributes the fixed error marker. -/
def pieceOf (C : BlockCipher) (keyOf : Bytes → Bytes) (password : Bytes) (fs : Fs)
    (res : ChunkResult) : Except String Bytes :=
  match res.result_path with
  | some rp =>
    if res.status = some "success" ∧ rp ≠ "" then decrypt_file C keyOf rp password fs
    else .ok errMarker
  | none => .ok errMarker

/-- The final combined text `aggregate_results` (`app/tasks.py:302`) builds:
sort the results by chunk index (stable), take each result's piece, and join
the pieces with a newline.  An `error` value models an exception escaping the
aggregation (a decryption failure); the file writes, the JSON log and the
Redis expiry calls do not affect the combined text and are not modelled. -/
def aggregate_results (C : BlockCipher) (keyOf : Bytes → Bytes)
    (results : List ChunkResult) (password : Bytes) (fs : Fs) : Except String Bytes := do
  let pieces ← (sortResults results).mapM (pieceOf C keyOf password fs)
  pure (List.intercalate (strBytes "\n") pieces)

theorem sorted_nodupkeys_eq :
    ∀ l₁ l₂ : List ChunkResult, l₁.Perm l₂ → l₁.Sorted keyLe → l₂.Sorted keyLe →
      (l₁.map sortKey).Nodup → l₁ = l₂ := by
  intro l₁
  induction l₁ with
  | nil =>
    intro l₂ hp _ _ _
    exact (hp.nil_eq).symm ▸ rfl
  | cons a t ih =>
    intro l₂ hp hs₁ hs₂ hnd
    cases l₂ with
    | nil => exact absurd hp.symm (by simp)
    | cons b t₂ =>
      have hab : a = b := by
        by_contra hne
        have ha2 : a ∈ b :: t₂ := hp.mem_iff.mp (by simp)
        have hb1 : b ∈ a :: t := hp.mem_iff.mpr (by simp)
        have hat2 : a ∈ t₂ := by
          rcases List.mem_cons.mp ha2 with h | h
          · exact absurd h hne
          · exact h
        have hbt : b ∈ t := by
          rcases List.mem_cons.mp hb1 with h | h
          · exact absurd h.symm hne
          · exact h
        have h1 : keyLe a b := (List.sorted_cons.mp hs₁).1 b hbt
        have h2 : keyLe b a := (List.sorted_cons.mp hs₂).1 a hat2
        have hkey : sortKey b = sortKey a := Nat.le_antisymm h2 h1
        have hnotin : sortKey a ∉ t.map sortKey := by
          have h3 := hnd
          rw [List.map_cons, List.nodup_cons] at h3
          exact h3.1
        exact hnotin (hkey ▸ List.mem_map_of_mem sortKey hbt)
      subst hab
      have hpt : t.Perm t₂ := hp.cons_inv
      have hndt : (t.map sortKey).Nodup := by
        rw [List.map_cons, List.nodup_cons] at hnd
        exact hnd.2
      have := ih t₂ hpt (List.sorted_cons.mp hs₁).2 (List.sorted_cons.mp hs₂).2 hndt
      rw [this]

instance {ε α : Type} [DecidableEq ε] [DecidableEq α] : DecidableEq (Except ε α) :=
  fun x y =>
  match x, y with
  | .ok a, .ok b =>
    if h : a = b then isTrue (by rw [h]) else isFalse (fun hc => h (by injection hc))
  | .error a, .error b =>
    if h : a = b then isTrue (by rw [h]) else isFalse (fun hc => h (by injection hc))
  | .ok _, .error _ => isFalse (fun hc => Except.noConfusion hc)
  | .error _, .ok _ => isFalse (fun hc => Except.noConfusion hc)

/-- C6 (amended): when the extracted chunk indices of the results are pairwise
distinct — as they are for the results of one job, whose paths all match the
pattern with distinct indices — `aggregate_results` produces the same final
combined text for every permutation of the result list.  (Unamended the claim
fails: ties, e.g. two non-matching paths sharing the sentinel 999999, keep
encounter order under the stable sort, so a permutation can change the
output.) -/
theorem c6_aggregate_perm_invariant (C : BlockCipher) (keyOf : Bytes → Bytes)
    (password : Bytes) (fs : Fs) (results results' : List ChunkResult)
    (hperm : results.Perm results') (hnd : (results.map sortKey).Nodup) :
    aggregate_results C keyOf results password fs
      = aggregate_results C keyOf results' password fs := by
  have h1 : sortResults results = sortResults results' := by
    apply sorted_nodupkeys_eq
    · exact (List.perm_insertionSort keyLe results).trans
        (hperm.trans (List.perm_insertionSort keyLe results').symm)
    · exact List.sorted_insertionSort keyLe results
    · exact List.sorted_insertionSort keyLe results'
    · exact (((List.perm_insertionSort keyLe results).map sortKey).nodup_iff).mpr hnd
  unfold aggregate_results
  rw [h1]

/-- A failed chunk result whose path does not match the chunk pattern. -/
def errResA : ChunkResult := ⟨some "error", none, none, some "a", some "boom"⟩

/-- A success result whose input path does not match the chunk pattern and
whose result file is absent (so its decryption is the empty string). -/
def succResB : ChunkResult := ⟨some "success", some "b", some "b.enc", none, none⟩

/-- C6 counterexample: the two results above both carry the sentinel index
999999, so the stable sort keeps their encounter order and the two orders of
the same two results produce different combined texts — `aggregate_results`
is not permutation-invariant for every list of results. -/
theorem c6_counterexample :
    ([errResA, succResB] : List ChunkResult).Perm [succResB, errResA] ∧
    aggregate_results xorCipher padKey32 [errResA, succResB] [] emptyFs
      ≠ aggregate_results xorCipher padKey32 [succResB, errResA] [] emptyFs := by
  constructor
  · exact List.Perm.swap succResB errResA []
  · decide

/-- A failed result for chunk 1 of job t. -/
def errRes1 : ChunkResult := ⟨some "error", none, none, some "t_chunk_1.txt", none⟩

/-- A failed result for chunk 2 of job t. -/
def errRes2 : ChunkResult := ⟨some "error", none, none, some "t_chunk_2.txt", none⟩

/-- Witness for C6 on two results with distinct indices 1 and 2. -/
theorem c6_witness :
    ([errRes1, errRes2] : List ChunkResult).Perm [errRes2, errRes1] ∧
    (([errRes1, errRes2] : List ChunkResult).map sortKey).Nodup ∧
    aggregate_results xorCipher padKey32 [errRes1, errRes2] [] emptyFs
      = aggregate_results xorCipher padKey32 [errRes2, errRes1] [] emptyFs :=
  ⟨by decide, by decide,
    c6_aggregate_perm_invariant xorCipher padKey32 [] emptyFs [errRes1, errRes2]
      [errRes2, errRes1] (by decide) (by decide)⟩

/-- C9 (amended): for every result whose status is not success,
`aggregate_results` appends, at that result's position in the index-sorted
order, the fixed visible (nonempty) error marker — errors and aborts are never
silently dropped.  The marker is the same constant string for every failing
chunk; it does not name the chunk (see the counterexample). -/
theorem c9_error_marker_at_position (C : BlockCipher) (keyOf : Bytes → Bytes)
    (password : Bytes) (fs : Fs) (results pre post : List ChunkResult)
    (r : ChunkResult) (hdecomp : sortResults results = pre ++ r :: post)
    (hstatus : r.status ≠ some "success") :
    (sortResults results).map (pieceOf C keyOf password fs)
      = pre.map (pieceOf C keyOf password fs)
        ++ .ok errMarker :: post.map (pieceOf C keyOf password fs)
    ∧ errMarker ≠ [] := by
  have hpr : pieceOf C keyOf password fs r = .ok errMarker := by
    unfold pieceOf
    cases hrp : r.result_path with
    | none => rfl
    | some rp => exact if_neg (fun hc => hstatus hc.1)
  constructor
  · rw [hdecomp, List.map_append, List.map_cons, hpr]
  · decide

/-- Witness for C9: a single failed result is mapped to the marker at its
(only) position. -/
theorem c9_witness :
    (sortResults [errRes1]).map (pieceOf xorCipher padKey32 [] emptyFs)
      = ([] : List ChunkResult).map (pieceOf xorCipher padKey32 [] emptyFs)
        ++ .ok errMarker :: ([] : List ChunkResult).map (pieceOf xorCipher padKey32 [] emptyFs)
    ∧ errMarker ≠ [] :=
  c9_error_marker_at_position xorCipher padKey32 [] emptyFs [errRes1] [] [] errRes1
    (by decide) (by decide)

/-- C9 counterexample to the marker naming the failing chunk: two jobs that
fail in different chunks (paths t_chunk_1.txt and t_chunk_2.txt) yield
identical combined texts, so the appended marker cannot name the failing
chunk. -/
theorem c9_counterexample :
    errRes1.path ≠ errRes2.path ∧
    aggregate_results xorCipher padKey32 [errRes1] [] emptyFs
      = aggregate_results xorCipher padKey32 [errRes2] [] emptyFs := by
  exact ⟨by decide, by decide⟩

/-- Whitespace for `str.strip` (ASCII). -/
def isPySpace (b : Nat) : Bool :=
  b = 32 || b = 9 || b = 10 || b = 13 || b = 11 || b = 12

/-- `str.strip()` on the UTF-8 bytes: drop whitespace at both ends. -/
def pyStrip (bs : Bytes) : Bytes :=
  ((bs.dropWhile isPySpace).reverse.dropWhile isPySpace).reverse

/-- `Path(p).with_suffix('.translated.enc')`: drop the extension of the final
path component, when it has one, and append the new suffix. -/
def withSuffixTranslatedEnc (p : String) : String :=
  let rev := p.data.reverse
  let seg := rev.takeWhile (fun c => !(c == '.') && !(c == '/'))
  let stemRev := if (rev.drop seg.length).head? = some '.' then rev.drop (seg.length + 1)
    else rev
  String.mk stemRev.reverse ++ ".translated.enc"

/-- What one `process_chunk` execution observes of the world outside the
filesystem: the abort flag at the moment of the entry check
(`app/tasks.py:244`), the abort flag at the moment just before the inference
request — which the code never polls — the outcome the inference request would
return (an `error` is a raised exception: network failure, non-2xx status or
JSON decode failure), and the IV the encryption will draw. -/
structure WorkerEnv where
  abortedAtEntry : Bool
  abortedAtPreCall : Bool
  inferResponse : Except String Bytes
  iv : Bytes

/-- The observable effects of one `process_chunk` execution: the returned
result dictionary, the number of increments applied to the job's completed
counter, the filesystem afterwards, and the number of inference requests
issued. -/
structure WorkerOutcome where
  result : ChunkResult
  incrs : Nat
  fs : Fs
  inferCalls : Nat

/-- `process_chunk` (`app/tasks.py:233`).  An abort observed at entry returns
an aborted result after incrementing the completed counter (line 246); the
body reads the chunk, returns `empty` for whitespace-only content, performs
the inference request, encrypts the response to the result path; any exception
in the body is caught and becomes an `error` result; the `finally` block
(line 299) increments the completed counter on every body path.  The language
settings only shape the prompt text, which reaches the outcome only through
`inferResponse`, so they are not parameters here. -/
def process_chunk (C : BlockCipher) (keyOf : Bytes → Bytes) (env : WorkerEnv)
    (chunk_path original_task_id : String) (encryption_password : Bytes)
    (fs : Fs) : WorkerOutcome :=
  if env.abortedAtEntry then
    ⟨⟨some "aborted", none, none, some chunk_path, none⟩, 1, fs, 0⟩
  else
    match fs chunk_path with
    | none =>
      ⟨⟨some "error", none, none, some chunk_path, some "FileNotFoundError"⟩, 1, fs, 0⟩
    | some raw =>
      if pyStrip raw = [] then
        ⟨⟨some "empty", none, none, some chunk_path, none⟩, 1, fs, 0⟩
      else
        match env.inferResponse with
        | .error e =>
          ⟨⟨some "error", none, none, some chunk_path, some e⟩, 1, fs, 1⟩
        | .ok translated_text =>
          let result_chunk_path := withSuffixTranslatedEnc chunk_path
          ⟨⟨some "success", some chunk_path, some result_chunk_path, none, none⟩, 1,
            encrypt_and_save C keyOf translated_text result_chunk_path
              encryption_password env.iv fs, 1⟩

/-- C5: every execution of `process_chunk` — aborted, empty, success, error
(read failure or inference failure) — increments the job's completed counter
exactly once, whichever branch runs. -/
theorem c5_progress_incremented_once (C : BlockCipher) (keyOf : Bytes → Bytes)
    (env : WorkerEnv) (chunk_path original_task_id : String)
    (encryption_password : Bytes) (fs : Fs) :
    (process_chunk C keyOf env chunk_path original_task_id encryption_password fs).incrs
      = 1 := by
  unfold process_chunk
  split
  · rfl
  · split
    · rfl
    · split
      · rfl
      · split
        · rfl
        · rfl

/-- C8 (amended): `process_chunk` polls the abort flag only once, at entry:
its behavior is independent of the value the flag holds immediately before the
inference request (first conjunct — there is no second checkpoint), and an
abort observed at entry yields an aborted result without any inference request
(second conjunct). -/
theorem c8_single_abort_checkpoint (C : BlockCipher) (keyOf : Bytes → Bytes)
    (env : WorkerEnv) (b : Bool) (chunk_path original_task_id : String)
    (encryption_password : Bytes) (fs : Fs) :
    process_chunk C keyOf env chunk_path original_task_id encryption_password fs
      = process_chunk C keyOf ⟨env.abortedAtEntry, b, env.inferResponse, env.iv⟩
          chunk_path original_task_id encryption_password fs
    ∧ (env.abortedAtEntry = true →
        (process_chunk C keyOf env chunk_path original_task_id
          encryption_password fs).result.status = some "aborted"
        ∧ (process_chunk C keyOf env chunk_path original_task_id
            encryption_password fs).inferCalls = 0) := by
  obtain ⟨ae, ap, ir, iv⟩ := env
  refine ⟨rfl, ?_⟩
  intro h
  cases h
  exact ⟨rfl, rfl⟩

/-- An environment where the job is aborted before the worker starts. -/
def abortedEnv : WorkerEnv := ⟨true, false, .ok [], []⟩

/-- Witness for C8 (amended): an abort at entry yields an aborted result and
no inference request. -/
theorem c8_witness :
    (process_chunk xorCipher padKey32 abortedEnv "c.txt" "tid" []
      emptyFs).result.status = some "aborted"
    ∧ (process_chunk xorCipher padKey32 abortedEnv "c.txt" "tid" []
        emptyFs).inferCalls = 0 :=
  (c8_single_abort_checkpoint xorCipher padKey32 abortedEnv false "c.txt" "tid" []
    emptyFs).2 rfl

/-- An environment where the abort flag is clear at entry but set at the
moment just before the inference request. -/
def preCallAbortEnv : WorkerEnv := ⟨false, true, .ok [104], List.replicate 16 0⟩

/-- A filesystem holding one non-empty chunk file. -/
def oneChunkFs : Fs := fun p => if p = "t_chunk_0.txt" then some [104, 105] else none

/-- C8 counterexample: with the abort flag set at the pre-call point (but not
at entry), `process_chunk` still issues the inference request and returns a
success result — the claimed second pre-call checkpoint does not exist in the
final `app/tasks.py` (it did exist in earlier iterations of the file). -/
theorem c8_counterexample :
    preCallAbortEnv.abortedAtPreCall = true ∧
    (process_chunk xorCipher padKey32 preCallAbortEnv "t_chunk_0.txt" "tid" []
      oneChunkFs).inferCalls = 1 ∧
    (process_chunk xorCipher padKey32 preCallAbortEnv "t_chunk_0.txt" "tid" []
      oneChunkFs).result.status = some "success" := by
  refine ⟨rfl, by decide, by decide⟩

/-- C4 counterexample: with the passphrases `[]` and `[4]` (distinct, hence
distinct derived keys here) and the 15-byte plaintext `AAAAAAAAAAAAAAA`,
decryption under the wrong passphrase returns — without any error — the
garbled plaintext `EAAAAAAAAAAAAAA`: its last garbled padding byte happens to
remain a valid PKCS7 terminator.  CBC with PKCS7 padding has no
authentication, so a wrong passphrase is not guaranteed to fail detectably. -/
theorem c4_counterexample :
    ([] : Bytes) ≠ [4] ∧
    decrypt_file xorCipher padKey32 "f.enc" [4]
      (encrypt_and_save xorCipher padKey32 (List.replicate 15 65) "f.enc" []
        (List.replicate 16 0) emptyFs)
      = .ok (69 :: List.replicate 14 65) ∧
    (69 :: List.replicate 14 65 : Bytes) ≠ List.replicate 15 65 := by
  refine ⟨by decide, by decide, by decide⟩

/-- C4 (amended): decrypting an artifact encrypted under `p1` with another
passphrase `p2` amounts to validating the garbled CBC decryption: it fails
with the padding `DecryptionError` exactly when the garbled bytes end in
invalid PKCS7 padding, fails with a decode error when the unpadded bytes are
not valid UTF-8, and otherwise returns those (possibly wrong) bytes without
error — so a wrong passphrase surfaces as a detectable failure whenever the
garbled padding or encoding is invalid, but (the scheme being unauthenticated)
not for every input. -/
theorem c4_wrong_passphrase_validation (C : BlockCipher) (keyOf : Bytes → Bytes)
    (content : Bytes) (file_path : String) (p1 p2 iv : Bytes) (fs : Fs)
    (hiv : iv.length = 16) :
    decrypt_file C keyOf file_path p2
      (encrypt_and_save C keyOf content file_path p1 iv fs)
      = match pkcs7Unpad (cbcDecrypt C (keyOf p2) iv
            (cbcEncrypt C (keyOf p1) iv (pkcs7Pad content))) with
        | .error e => .error e
        | .ok s => if utf8Valid s then .ok s else .error "UnicodeDecodeError" := by
  have hmod : (pkcs7Pad content).length % 16 = 0 := pkcs7Pad_length_mod content
  have helen : (cbcEncrypt C (keyOf p1) iv (pkcs7Pad content)).length
      = (pkcs7Pad content).length := cbcEncrypt_length _ _ _ _ hmod
  unfold encrypt_and_save decrypt_file
  simp only [if_pos rfl]
  rw [take_left_of_length hiv, drop_left_of_length hiv]
  rw [if_neg (by rw [helen, hmod]; exact fun hc => hc rfl)]

/-- Witness for C4 (amended) at passphrases whose key difference corrupts the
final padding byte: the padding check fails and the error is surfaced. -/
theorem c4_witness :
    (List.replicate 16 0 : Bytes).length = 16 ∧
    decrypt_file xorCipher padKey32 "f.enc" (List.replicate 16 7)
      (encrypt_and_save xorCipher padKey32 (List.replicate 15 65) "f.enc" []
        (List.replicate 16 0) emptyFs)
      = match pkcs7Unpad (cbcDecrypt xorCipher (padKey32 (List.replicate 16 7))
            (List.replicate 16 0)
            (cbcEncrypt xorCipher (padKey32 []) (List.replicate 16 0)
              (pkcs7Pad (List.replicate 15 65)))) with
        | .error e => .error e
        | .ok s => if utf8Valid s then .ok s else .error "UnicodeDecodeError" :=
  ⟨by decide,
    c4_wrong_passphrase_validation xorCipher padKey32 (List.replicate 15 65) "f.enc"
      [] (List.replicate 16 7) (List.replicate 16 0) emptyFs (by decide)⟩

/-- A terminal outcome a worker reports for one chunk. -/
inductive Outcome
  | success
  | error
  | aborted
  | empty
deriving DecidableEq

/-- State of one job's fan-out/fan-in: which of the `n` chunk tasks have
reported, with what outcome, and the list of aggregate invocations made so
far, each with the results it received. -/
structure ChordState (n : Nat) where
  reported : Fin n → Option Outcome
  aggCalls : List (List Outcome)

/-- The results handed to the aggregate call: one per reported task. -/
def collect {n : Nat} (r : Fin n → Option Outcome) : List Outcome :=
  (List.finRange n).filterMap r

/-- Initial state: no task has reported, the aggregate has not run. -/
def chordInit (n : Nat) : ChordState n :=
  ⟨fun _ => none, []⟩

/-- Modelled from the spec: the barrier semantics of the task queue underlying
`chord(header)(callback)` (`app/tasks.py:209`), which is part of the queueing
infrastructure, not of this repository.  One transition: a task `i` that has
not yet reported reports a terminal outcome `o`; when `i` was the last missing
report, that same transition hands the collected results to the aggregate
callback. -/
inductive ChordStep {n : Nat} : ChordState n → ChordState n → Prop
  | report (s : ChordState n) (i : Fin n) (o : Outcome) (h : s.reported i = none) :
      ChordStep s
        ⟨Function.update s.reported i (some o),
          if ∀ j, Function.update s.reported i (some o) j ≠ none then
            s.aggCalls ++ [collect (Function.update s.reported i (some o))]
          else s.aggCalls⟩

/-- Reachability of a chord state from the initial state: the set of states
that can arise under any interleaving of worker completions. -/
def ChordReachable {n : Nat} (s : ChordState n) : Prop :=
  Relation.ReflTransGen ChordStep (chordInit n) s

/-- The inductive invariant: before all tasks have reported no aggregate call
has been made, and once all have reported exactly the one call with the
collected results has been made. -/
def chordInv {n : Nat} (s : ChordState n) : Prop :=
  (¬ (∀ j, s.reported j ≠ none) → s.aggCalls = []) ∧
  ((∀ j, s.reported j ≠ none) → s.aggCalls = [collect s.reported])

theorem chordInv_init (n : Nat) (hn : 0 < n) : chordInv (chordInit n) := by
  constructor
  · intro _; rfl
  · intro hall
    exact absurd rfl (hall ⟨0, hn⟩)

theorem chordInv_step {n : Nat} {s t : ChordState n} (hstep : ChordStep s t)
    (hinv : chordInv s) : chordInv t := by
  cases hstep with
  | report i o h =>
    have hnotall : ¬ (∀ j, s.reported j ≠ none) := fun hall => hall i h
    have hempty : s.aggCalls = [] := hinv.1 hnotall
    constructor
    · intro hnall
      by_cases hc : ∀ j, Function.update s.reported i (some o) j ≠ none
      · exact absurd hc hnall
      · simp only [if_neg hc, hempty]
    · intro hall
      simp only at hall
      simp only [if_pos hall, hempty, List.nil_append]

theorem collect_length {n : Nat} (r : Fin n → Option Outcome)
    (hall : ∀ j, r j ≠ none) : (collect r).length = n := by
  have hgen : ∀ l : List (Fin n), (l.filterMap r).length = l.length := by
    intro l
    induction l with
    | nil => rfl
    | cons a t ih =>
      cases ha : r a with
      | none => exact absurd ha (hall a)
      | some o => simp [List.filterMap_cons, ha, ih]
  rw [collect, hgen, List.length_finRange]

/-- C2: in the modelled barrier, along every interleaving of worker
completions of a job with `n` dispatched chunks: the aggregate runs at most
once (never twice); every aggregate invocation receives exactly `n` results
and happens only after all `n` tasks have reported a terminal outcome (never
before); and once all tasks have reported, it has run exactly once. -/
theorem c2_barrier_exactly_once (n : Nat) (hn : 0 < n) (s : ChordState n)
    (hreach : ChordReachable s) :
    s.aggCalls.length ≤ 1
    ∧ (∀ call ∈ s.aggCalls, call.length = n ∧ ∀ j, s.reported j ≠ none)
    ∧ ((∀ j, s.reported j ≠ none) → s.aggCalls.length = 1) := by
  have hinv : chordInv s := by
    induction hreach with
    | refl => exact chordInv_init n hn
    | tail hsteps hstep ih => exact chordInv_step hstep ih
  by_cases hall : ∀ j, s.reported j ≠ none
  · have hcalls := hinv.2 hall
    refine ⟨by rw [hcalls]; exact Nat.le_refl 1, ?_, fun _ => by rw [hcalls]; rfl⟩
    intro call hcall
    rw [hcalls, List.mem_singleton] at hcall
    exact ⟨hcall ▸ collect_length s.reported hall, hall⟩
  · have hcalls := hinv.1 hall
    refine ⟨by rw [hcalls]; exact Nat.zero_le 1, ?_, fun h => absurd h hall⟩
    intro call hcall
    rw [hcalls] at hcall
    exact absurd hcall (List.not_mem_nil call)

/-- The state of a one-chunk job after its single task reports success. -/
def chordDemoState : ChordState 1 :=
  ⟨Function.update (chordInit 1).reported 0 (some Outcome.success),
    if ∀ j, Function.update (chordInit 1).reported 0 (some Outcome.success) j ≠ none then
      (chordInit 1).aggCalls
        ++ [collect (Function.update (chordInit 1).reported 0 (some Outcome.success))]
    else (chordInit 1).aggCalls⟩

theorem chordDemoState_reachable : ChordReachable chordDemoState :=
  Relation.ReflTransGen.single (ChordStep.report (chordInit 1) 0 Outcome.success rfl)

/-- Witness for C2 on a one-chunk job whose task has reported. -/
theorem c2_witness :
    (0 : Nat) < 1
    ∧ (chordDemoState.aggCalls.length ≤ 1
      ∧ (∀ call ∈ chordDemoState.aggCalls, call.length = 1
          ∧ ∀ j, chordDemoState.reported j ≠ none)
      ∧ ((∀ j, chordDemoState.reported j ≠ none) → chordDemoState.aggCalls.length = 1)) :=
  ⟨by decide, c2_barrier_exactly_once 1 (by decide) chordDemoState chordDemoState_reachable⟩
